import Mathlib

/-!
Shallow embedding of the `chrome-notification-sanitizer` extension.

Strings are modelled as `List Char`.  The sanitization passes of
`injected.js` (anchor removal, generic tag stripping, entity decoding,
whitespace normalization) are modelled as character-list scanners that
follow the semantics of the JavaScript regex-`replace` calls; the
background service worker's dispatcher (notification creation, the
id-to-tab correlation map, click/close handlers and the periodic sweep)
is modelled as a state machine over an association list with an effect
trace.
-/

abbrev Str := List Char

/-- Does `pat` occur at the start of `s`?  Model of an anchored literal match. -/
def beginsWith : Str → Str → Bool
  | [], _ => true
  | _ :: _, [] => false
  | p :: ps, c :: cs => p == c && beginsWith ps cs

/-- Bool test: does the literal string `pat` occur somewhere inside `s`? -/
def hasSubB (pat : Str) : Str → Bool
  | [] => beginsWith pat []
  | c :: r => beginsWith pat (c :: r) || hasSubB pat r

/-- `pat` occurs as a contiguous substring of `s`. -/
def HasSub (pat s : Str) : Prop := ∃ a b, s = a ++ pat ++ b

/-- `s` contains a substring of the form `<...>` (a `<` with a later `>`). -/
def HasAngle (s : Str) : Prop := ∃ a m b, s = a ++ '<' :: (m ++ '>' :: b)

/-- Bool test for `HasAngle`. -/
def hasAngleB : Str → Bool
  | [] => false
  | c :: r => (decide (c = '<') && decide ('>' ∈ r)) || hasAngleB r

/-- The whitespace characters recognized by the JavaScript `\s` class and
`String.trim` (restricted to the ASCII range, which covers the program's
inputs). -/
def spaceB (c : Char) : Bool :=
  c == ' ' || c == '\t' || c == '\n' || c == '\r' || c == '\x0b' || c == '\x0c'

/-- Model of JavaScript `String.prototype.trim`: drop leading and trailing
whitespace. -/
def trimWs (s : Str) : Str :=
  ((s.dropWhile spaceB).reverse.dropWhile spaceB).reverse

/-- Model of `str.replace(/^\s*\n+/, '')` in `sanitizeBody`: if the maximal
leading whitespace run contains a newline, the (unique) regex match removes
everything up to and including the last newline of that run. -/
def dropLeadingBlank (s : Str) : Str :=
  let w := s.takeWhile spaceB
  let r := s.dropWhile spaceB
  if '\n' ∈ w then (w.reverse.takeWhile (fun c => !(c == '\n'))).reverse ++ r
  else s

/-- Flush a pending run of `n` newlines, model of one `\n{3,}` → `"\n\n"`
replacement: runs of three or more newlines collapse to exactly two. -/
def flushNl (n : Nat) : Str :=
  if 3 ≤ n then ['\n', '\n'] else List.replicate n '\n'

/-- Scanner for `str.replace(/\n{3,}/g, '\n\n')`: `n` counts the newlines of
the current run. -/
def collGo (n : Nat) : Str → Str
  | [] => flushNl n
  | c :: r => if c = '\n' then collGo (n + 1) r else flushNl n ++ c :: collGo 0 r

/-- Model of `str.replace(/\n{3,}/g, '\n\n')`. -/
def collapseNl (s : Str) : Str := collGo 0 s

/-- Scanner for `str.replace(/<[^>]*>/g, '')`.  `none` means we are outside a
candidate tag; `some buf` means we saw a `<` and `buf` holds the pending
characters (reversed) in case the tag is never closed. -/
def stGo : Option Str → Str → Str
  | none, [] => []
  | some buf, [] => buf.reverse
  | none, c :: r => if c = '<' then stGo (some [c]) r else c :: stGo none r
  | some buf, c :: r => if c = '>' then stGo none r else stGo (some (c :: buf)) r

/-- Model of `clean.replace(/<[^>]*>/g, '')`: remove every `<`-to-first-`>`
span; an unclosed `<` is left in place. -/
def stripTags (s : Str) : Str := stGo none s

/-- Drop everything up to and including the first occurrence of `c`;
`none` if `c` does not occur. -/
def dropThrough (c : Char) : Str → Option Str
  | [] => none
  | x :: r => if x = c then some r else dropThrough c r

/-- Attempt to match the regex `/<a[^>]*>[^<]*<\/a>/i` at the start of the
string; on success return the remainder after the match.  Greedy `[^>]*`
followed by a mandatory `>` deterministically consumes up to the first `>`,
and greedy `[^<]*` up to the first `<`, which must start the literal `</a>`
(case-insensitively in the letter). -/
def tryAnchor : Str → Option Str
  | [] => none
  | [_] => none
  | c :: a :: rest =>
    if c = '<' ∧ (a = 'a' ∨ a = 'A') then
      match dropThrough '>' rest with
      | some r1 =>
        match r1.dropWhile (fun x => !(decide (x = '<'))) with
        | '<' :: '/' :: a2 :: '>' :: tail =>
          if a2 = 'a' ∨ a2 = 'A' then some tail else none
        | _ => none
      | none => none
    else none

/-- Fuel-driven scanner for `str.replace(/<a[^>]*>[^<]*<\/a>/gi, '')`: try an
anchor match at every position; on success continue after the match, on
failure emit one character and move on.  Fuel `s.length` suffices because
every step consumes at least one character. -/
def raGo : Nat → Str → Str
  | _, [] => []
  | 0, s => s
  | f + 1, c :: r =>
    match tryAnchor (c :: r) with
    | some rest => raGo f rest
    | none => c :: raGo f r

/-- Model of `str.replace(/<a[^>]*>[^<]*<\/a>/gi, '')`. -/
def removeAnchors (s : Str) : Str := raGo s.length s

/-- Fuel-driven scanner for a global literal replace
`str.replace(/pat/g, rep)`: leftmost-first, non-overlapping, and the
replacement text is not rescanned. -/
def rsGo (pat rep : Str) : Nat → Str → Str
  | _, [] => []
  | 0, s => s
  | f + 1, c :: r =>
    if beginsWith pat (c :: r) then
      rep ++ rsGo pat rep f (List.drop (pat.length - 1) r)
    else
      c :: rsGo pat rep f r

/-- Model of a global literal `String.replace`. -/
def replaceStr (pat rep s : Str) : Str := rsGo pat rep s.length s

/-- The raw text of the entity `&amp;`. -/
def ampS : Str := ['&', 'a', 'm', 'p', ';']

/-- The raw text of the entity `&lt;`. -/
def ltS : Str := ['&', 'l', 't', ';']

/-- The raw text of the entity `&gt;`. -/
def gtS : Str := ['&', 'g', 't', ';']

/-- The raw text of the entity `&quot;`. -/
def quotS : Str := ['&', 'q', 'u', 'o', 't', ';']

/-- The raw text of the entity `&#39;`. -/
def aposS : Str := ['&', '#', '3', '9', ';']

/-- The five sequential entity-decoding replaces of `injected.js`
(`&amp;` then `&lt;` then `&gt;` then `&quot;` then `&#39;`). -/
def decodeEntities (s : Str) : Str :=
  replaceStr aposS ['\'']
    (replaceStr quotS ['"']
      (replaceStr gtS ['>']
        (replaceStr ltS ['<']
          (replaceStr ampS ['&'] s))))

/-- `sanitizeBody` from `injected.js`: remove whole anchor elements, strip
remaining tags, decode entities, remove leading blank lines, trim, and
collapse three-or-more newlines to two.  Empty input passes through. -/
def sanitizeBody (s : Str) : Str :=
  if s = [] then s
  else collapseNl (trimWs (dropLeadingBlank (decodeEntities (stripTags (removeAnchors s)))))

/-- `stripHtml` from `injected.js` (the title sanitizer): strip tags, decode
entities, trim.  Empty input passes through. -/
def stripHtml (s : Str) : Str :=
  if s = [] then s else trimWs (decodeEntities (stripTags s))

/-!
Dispatcher (the background service worker).  Times are `Nat` milliseconds
for identifier generation and `Int` for the sweep cutoff arithmetic;
`Math.random().toString(36).substr(2, 9)` is an oracle string, and the
outcome of an icon `fetch` is an oracle value.
-/

/-- JavaScript `x || d` for an optional string: `null`/`undefined` and the
empty string are falsy. -/
def jsOrS (o : Option Str) (d : Str) : Str :=
  match o with
  | some s => if s = [] then d else s
  | none => d

/-- Outcome of the service worker's `fetch(iconUrl)` and the subsequent
blob/arrayBuffer conversion: the fetch can throw, return a non-ok response,
or succeed with a mime type and bytes; the conversion can itself throw. -/
inductive FetchOutcome
  | netErr
  | decodeErr
  | response (ok : Bool) (mime : Str) (bytes : List Nat)
  deriving DecidableEq

/-- The three failure shapes of icon resolution: network error, non-success
response, decode error. -/
def fetchFails : FetchOutcome → Bool
  | .netErr => true
  | .decodeErr => true
  | .response ok _ _ => !ok

/-- Character `n` of the base64 alphabet. -/
def b64Char (n : Nat) : Char :=
  "ABCDEFGHIJKLMNOPQRSTUVWXYZabcdefghijklmnopqrstuvwxyz0123456789+/".data.getD n '='

/-- Model of `btoa` applied to a byte string: standard base64 with `=`
padding. -/
def b64Encode : List Nat → Str
  | [] => []
  | [a] => [b64Char (a / 4), b64Char (a % 4 * 16), '=', '=']
  | [a, b] => [b64Char (a / 4), b64Char (a % 4 * 16 + b / 16), b64Char (b % 16 * 4), '=']
  | a :: b :: c :: rest =>
    b64Char (a / 4) :: b64Char (a % 4 * 16 + b / 16) ::
      b64Char (b % 16 * 4 + c / 64) :: b64Char (c % 64) :: b64Encode rest

/-- The literal `data:`. -/
def dataPre : Str := ['d', 'a', 't', 'a', ':']

/-- Service-worker `iconToDataUrl`: missing/empty URL gives `null`, a
`data:` URL is returned as-is, otherwise the fetch outcome decides between
`null` (network error, non-ok response, decode error) and an inline
`data:<mime>;base64,<bytes>` URL, with `image/png` when the blob type is
empty. -/
def iconToDataUrl (icon : Option Str) (f : FetchOutcome) : Option Str :=
  match icon with
  | none => none
  | some u =>
    if u = [] then none
    else if beginsWith dataPre u then some u
    else
      match f with
      | .netErr => none
      | .decodeErr => none
      | .response ok mime bytes =>
        if ok then
          some (dataPre ++ (if mime = [] then "image/png".data else mime) ++
            ";base64,".data ++ b64Encode bytes)
        else none

/-- Model of `chrome.runtime.getURL`. -/
def runtimeGetURL (p : Str) : Str := "chrome-extension://".data ++ p

/-- The extension's bundled fallback icon reference. -/
def defaultIconUrl : Str := runtimeGetURL "icons/icon128.png".data

/-- Decimal digit character. -/
def digitChar (d : Nat) : Char := Char.ofNat (48 + d)

/-- Fuel-driven most-significant-first decimal rendering, as produced by a
JavaScript template literal `${n}`. -/
def digitsAux : Nat → Nat → Str → Str
  | 0, _, acc => acc
  | f + 1, n, acc =>
    if n < 10 then digitChar n :: acc
    else digitsAux f (n / 10) (digitChar (n % 10) :: acc)

/-- Decimal rendering of a natural number. -/
def natToDec (n : Nat) : Str := digitsAux (n + 1) n []

/-- Value of a decimal digit string, as computed by `parseInt` on a `\d+`
match. -/
def decVal (ds : Str) : Nat := ds.foldl (fun a c => 10 * a + (c.toNat - 48)) 0

/-- `generateNotificationId`: `notif-${Date.now()}-${random-suffix}`. -/
def generateNotificationId (now : Nat) (rand : Str) : Str :=
  "notif-".data ++ (natToDec now ++ '-' :: rand)

/-- Model of matching `id` against the pattern `notif-` + digit run + `-`,
anchored at the start, followed by `parseInt` on the digit run: the maximal
digit run after `notif-` must be nonempty and be followed by `-`. -/
def parseTs (id : Str) : Option Nat :=
  if beginsWith "notif-".data id then
    if (id.drop 6).takeWhile (fun c => c.isDigit) = [] then none
    else
      match (id.drop 6).dropWhile (fun c => c.isDigit) with
      | '-' :: _ => some (decVal ((id.drop 6).takeWhile (fun c => c.isDigit)))
      | _ => none
  else none

/-- The value stored in `notificationTabMap`. -/
structure TabInfo where
  tabId : Nat
  windowId : Option Nat
  url : Str
  deriving DecidableEq

/-- The correlation table `notificationTabMap`, modelled as an association
list with JavaScript `Map` semantics. -/
abbrev CorrMap := List (Str × TabInfo)

/-- `Map.set`: replace the entry in place if the key exists, else append. -/
def mapSet (k : Str) (v : TabInfo) : CorrMap → CorrMap
  | [] => [(k, v)]
  | (k', v') :: rest => if k' = k then (k, v) :: rest else (k', v') :: mapSet k v rest

/-- `Map.get`. -/
def mapGet (k : Str) : CorrMap → Option TabInfo
  | [] => none
  | (k', v) :: rest => if k' = k then some v else mapGet k rest

/-- `Map.delete` (a no-op on a missing key). -/
def mapDelete (k : Str) (m : CorrMap) : CorrMap :=
  m.filter (fun e => !(decide (e.1 = k)))

/-- The keys of the correlation table. -/
def mapKeys (m : CorrMap) : List Str := m.map Prod.fst

/-- The at-most-one-entry-per-id invariant. -/
def KeysNodup (m : CorrMap) : Prop := (mapKeys m).Nodup

instance (m : CorrMap) : Decidable (KeysNodup m) :=
  inferInstanceAs (Decidable (List.Nodup _))

/-- The `createNotification` message payload. -/
structure CreateMsg where
  title : Option Str
  body : Option Str
  icon : Option Str
  tag : Option Str
  url : Str
  deriving DecidableEq

/-- The relevant parts of the `sender` argument: `sender.tab?.id` and
`sender.tab?.windowId`. -/
structure Sender where
  tabId : Option Nat
  windowId : Option Nat
  deriving DecidableEq

/-- The options object passed to `chrome.notifications.create`. -/
structure NotifOptions where
  type : Str
  title : Str
  message : Str
  iconUrl : Str
  priority : Int
  deriving DecidableEq

/-- The platform calls the dispatcher can make. -/
inductive Effect
  | createNotif (id : Str) (opts : NotifOptions)
  | focusWindow (w : Nat)
  | activateTab (t : Nat)
  | createTab (url : Str)
  | clearNotif (id : Str)
  deriving DecidableEq

/-- The notification identifier chosen by `handleCreateNotification`:
the caller's tag when truthy, else a generated id. -/
def notifIdOf (msg : CreateMsg) (now : Nat) (rand : Str) : Str :=
  jsOrS msg.tag (generateNotificationId now rand)

/-- `handleCreateNotification`: record the tab correlation when the sender
has a (truthy) tab id, resolve the icon, and issue the native notification
with defaulted title/body and the resolved or default icon. -/
def handleCreateNotification (msg : CreateMsg) (sender : Sender) (st : CorrMap)
    (now : Nat) (rand : Str) (f : FetchOutcome) : CorrMap × List Effect :=
  let notificationId := notifIdOf msg now rand
  let st' :=
    match sender.tabId with
    | some t =>
      if t = 0 then st
      else mapSet notificationId ⟨t, sender.windowId, msg.url⟩ st
    | none => st
  let iconDataUrl := iconToDataUrl msg.icon f
  let options : NotifOptions :=
    { type := "basic".data
      title := jsOrS msg.title "Notification".data
      message := jsOrS msg.body []
      iconUrl := jsOrS iconDataUrl defaultIconUrl
      priority := 0 }
  (st', [Effect.createNotif notificationId options])

/-- `tabInfo.windowId` if truthy. -/
def winOf (i : TabInfo) : Option Nat :=
  match i.windowId with
  | some w => if w = 0 then none else some w
  | none => none

/-- `tabInfo.tabId` if truthy. -/
def tabOf (i : TabInfo) : Option Nat :=
  if i.tabId = 0 then none else some i.tabId

/-- `tabInfo.url` if truthy. -/
def urlOf (i : TabInfo) : Option Str :=
  if i.url = [] then none else some i.url

/-- The `catch` block of the click handler: open a new tab at the stored
URL when there is one. -/
def fallbackEffects (i : TabInfo) : List Effect :=
  match urlOf i with
  | some u => [Effect.createTab u]
  | none => []

/-- Second half of the click handler's `try` block: activate the tab, and
fall back on a throw. -/
def tabStep (i : TabInfo) (tErr : Bool) : List Effect :=
  match tabOf i with
  | some t => Effect.activateTab t :: (if tErr then fallbackEffects i else [])
  | none => []

/-- The click handler's `try`/`catch`: focus the window, then activate the
tab; if the attempted platform call throws (`wErr`/`tErr`), open a new tab
at the stored URL instead. -/
def focusEffects (i : TabInfo) (wErr tErr : Bool) : List Effect :=
  match winOf i with
  | some w => Effect.focusWindow w :: (if wErr then fallbackEffects i else tabStep i tErr)
  | none => tabStep i tErr

/-- Does the `try` block of the click handler throw? -/
def focusThrows (i : TabInfo) (wErr tErr : Bool) : Bool :=
  match winOf i with
  | some _ => if wErr then true else (tabOf i).isSome && tErr
  | none => (tabOf i).isSome && tErr

/-- Is an effect a new-tab-open call? -/
def isCreateTab : Effect → Bool
  | .createTab _ => true
  | _ => false

/-- The `chrome.notifications.onClicked` listener: act on the correlation
entry if present, then clear the notification and drop the entry. -/
def onClicked (st : CorrMap) (id : Str) (wErr tErr : Bool) : CorrMap × List Effect :=
  match mapGet id st with
  | some i => (mapDelete id st, focusEffects i wErr tErr ++ [Effect.clearNotif id])
  | none => (mapDelete id st, [Effect.clearNotif id])

/-- The `chrome.notifications.onClosed` listener. -/
def onClosed (st : CorrMap) (id : Str) (_byUser : Bool) : CorrMap :=
  mapDelete id st

/-- The sweep's retention window: one hour in milliseconds. -/
def retentionMs : Int := 60 * 60 * 1000

/-- Is the entry keyed `id` removed by a sweep at time `now`?  The sweep
recognizes ids of the shape `notif-` + digit run + `-` and compares the
embedded timestamp against `Date.now() - 3600000`. -/
def sweepable (id : Str) (now : Int) : Bool :=
  match parseTs id with
  | some t => decide ((t : Int) < now - retentionMs)
  | none => false

/-- One run of the periodic cleanup interval. -/
def sweepRun (st : CorrMap) (now : Int) : CorrMap :=
  st.filter (fun e => !(sweepable e.1 now))

/-!
Token grammar for claim C1: strings "consisting only of well-formed HTML
tags and the five known entities".
-/

/-- The five entities known to the sanitizer. -/
inductive Ent
  | amp
  | lt
  | gt
  | quot
  | apos
  deriving DecidableEq, Fintype

/-- The raw text of an entity. -/
def Ent.str : Ent → Str
  | .amp => ampS
  | .lt => ltS
  | .gt => gtS
  | .quot => quotS
  | .apos => aposS

/-- The decoded character of an entity. -/
def Ent.dch : Ent → Char
  | .amp => '&'
  | .lt => '<'
  | .gt => '>'
  | .quot => '"'
  | .apos => '\''

/-- A token of claim C1's input grammar: a tag `<inner>` or an entity. -/
inductive Tok
  | tag (inner : Str)
  | ent (e : Ent)
  deriving DecidableEq

/-- The raw text of a token. -/
def Tok.render : Tok → Str
  | .tag inner => '<' :: (inner ++ ['>'])
  | .ent e => e.str

/-- Well-formedness of a token: a tag's inner text contains no angle
bracket. -/
def Tok.wf : Tok → Prop
  | .tag inner => '<' ∉ inner ∧ '>' ∉ inner
  | .ent _ => True

/-- A token whose entity (if it is one) does not encode an angle bracket. -/
def Tok.noAngleEnt : Tok → Prop
  | .tag _ => True
  | .ent e => e = .amp ∨ e = .quot ∨ e = .apos

/-- Concatenation of a list of strings. -/
def catL : List Str → Str
  | [] => []
  | s :: rest => s ++ catL rest

/-- The string spelled by a token list. -/
def renderToks (ts : List Tok) : Str := catL (ts.map Tok.render)

/-- The entities of a token list, in order. -/
def entsOf : List Tok → List Ent
  | [] => []
  | .tag _ :: ts => entsOf ts
  | .ent e :: ts => e :: entsOf ts

/-- The text of an entity after the `&amp;` pass. -/
def entStep1 : Ent → Str
  | .amp => ['&']
  | .lt => ltS
  | .gt => gtS
  | .quot => quotS
  | .apos => aposS

/-- The text of an entity after the `&amp;` and `&quot;` passes. -/
def entStep4 : Ent → Str
  | .amp => ['&']
  | .lt => ltS
  | .gt => gtS
  | .quot => ['"']
  | .apos => aposS

/-- The text of an entity after the `&amp;`, `&quot;` and `&#39;` passes. -/
def entStep5 : Ent → Str
  | .amp => ['&']
  | .lt => ltS
  | .gt => gtS
  | .quot => ['"']
  | .apos => ['\'']

/-- The entities that do not encode an angle bracket. -/
def E3 (e : Ent) : Prop := e = .amp ∨ e = .quot ∨ e = .apos

instance (e : Ent) : Decidable (E3 e) :=
  inferInstanceAs (Decidable (_ ∨ _ ∨ _))

instance (t : Tok) : Decidable t.wf := by
  cases t with
  | tag inner => exact inferInstanceAs (Decidable (_ ∧ _))
  | ent e => exact .isTrue trivial

instance (t : Tok) : Decidable t.noAngleEnt := by
  cases t with
  | tag inner => exact .isTrue trivial
  | ent e => exact inferInstanceAs (Decidable (_ ∨ _ ∨ _))

/-!
Basic bridge lemmas between the Bool scanners and their Prop versions.
-/

theorem beginsWith_iff (pat s : Str) :
    beginsWith pat s = true ↔ ∃ t, s = pat ++ t := by
  induction pat generalizing s with
  | nil => simp [beginsWith]
  | cons p ps ih =>
    cases s with
    | nil => simp [beginsWith]
    | cons c cs =>
      simp only [beginsWith, Bool.and_eq_true, beq_iff_eq, ih, List.cons_append,
        List.cons.injEq]
      constructor
      · rintro ⟨rfl, t, rfl⟩; exact ⟨t, rfl, rfl⟩
      · rintro ⟨t, rfl, rfl⟩; exact ⟨rfl, t, rfl⟩

theorem beginsWith_append_self (pat x : Str) :
    beginsWith pat (pat ++ x) = true :=
  (beginsWith_iff pat _).mpr ⟨x, rfl⟩

theorem hasSubB_iff (pat s : Str) : hasSubB pat s = true ↔ HasSub pat s := by
  induction s with
  | nil =>
    simp only [hasSubB, beginsWith_iff, HasSub]
    constructor
    · rintro ⟨t, ht⟩
      exact ⟨[], t, by simpa using ht⟩
    · rintro ⟨a, b, h⟩
      rcases List.append_eq_nil.mp h.symm with ⟨h1, rfl⟩
      rcases List.append_eq_nil.mp h1 with ⟨rfl, rfl⟩
      exact ⟨[], rfl⟩
  | cons c r ih =>
    simp only [hasSubB, Bool.or_eq_true, beginsWith_iff, ih, HasSub]
    constructor
    · rintro (⟨t, ht⟩ | ⟨a, b, rfl⟩)
      · exact ⟨[], t, by simpa using ht⟩
      · exact ⟨c :: a, b, by simp⟩
    · rintro ⟨a, b, h⟩
      cases a with
      | nil => exact Or.inl ⟨b, by simpa using h⟩
      | cons a0 a' =>
        simp only [List.cons_append, List.cons.injEq] at h
        exact Or.inr ⟨a', b, h.2⟩

instance (pat s : Str) : Decidable (HasSub pat s) :=
  decidable_of_iff (hasSubB pat s = true) (hasSubB_iff pat s)

theorem hasAngleB_iff (s : Str) : hasAngleB s = true ↔ HasAngle s := by
  induction s with
  | nil =>
    simp only [hasAngleB, HasAngle]
    constructor
    · intro h; cases h
    · rintro ⟨a, m, b, h⟩; cases a <;> simp_all
  | cons c r ih =>
    simp only [hasAngleB, Bool.or_eq_true, Bool.and_eq_true, decide_eq_true_eq, ih, HasAngle]
    constructor
    · rintro (⟨rfl, hm⟩ | ⟨a, m, b, rfl⟩)
      · rcases List.append_of_mem hm with ⟨m, b, rfl⟩
        exact ⟨[], m, b, rfl⟩
      · exact ⟨c :: a, m, b, rfl⟩
    · rintro ⟨a, m, b, h⟩
      cases a with
      | nil =>
        simp only [List.nil_append, List.cons.injEq] at h
        exact Or.inl ⟨h.1, by rw [h.2]; simp⟩
      | cons a0 a' =>
        simp only [List.cons_append, List.cons.injEq] at h
        exact Or.inr ⟨a', m, b, h.2⟩

instance (s : Str) : Decidable (HasAngle s) :=
  decidable_of_iff (hasAngleB s = true) (hasAngleB_iff s)

theorem HasSub.mem {pat s : Str} (h : HasSub pat s) : ∀ c ∈ pat, c ∈ s := by
  rcases h with ⟨a, b, rfl⟩
  intro c hc
  simp [List.mem_append, hc]

theorem not_hasSub_of_not_mem {pat s : Str} {c : Char}
    (hc : c ∈ pat) (hs : c ∉ s) : ¬ HasSub pat s :=
  fun h => hs (h.mem c hc)

/-!
Lemmas for the global literal replace `replaceStr`.
-/

theorem rsGo_mono (pat rep : Str) (hp : pat ≠ []) :
    ∀ (f g : Nat) (s : Str), s.length ≤ f → s.length ≤ g →
      rsGo pat rep f s = rsGo pat rep g s := by
  intro f
  induction f with
  | zero =>
    intro g s hf _
    cases s with
    | nil => cases g <;> rfl
    | cons c r => simp at hf
  | succ f ih =>
    intro g s hf hg
    cases s with
    | nil => cases g <;> rfl
    | cons c r =>
      cases g with
      | zero => simp at hg
      | succ g =>
        simp only [rsGo]
        cases hb : beginsWith pat (c :: r) with
        | false =>
          simp only [Bool.false_eq_true, if_false]
          have := ih g r (by simpa using Nat.le_of_succ_le_succ hf)
            (by simpa using Nat.le_of_succ_le_succ hg)
          rw [this]
        | true =>
          simp only [if_true]
          have hlen : (List.drop (pat.length - 1) r).length ≤ r.length := by
            simpa using List.length_drop_le (pat.length - 1) r
          have h1 : (List.drop (pat.length - 1) r).length ≤ f :=
            le_trans hlen (by simpa using Nat.le_of_succ_le_succ hf)
          have h2 : (List.drop (pat.length - 1) r).length ≤ g :=
            le_trans hlen (by simpa using Nat.le_of_succ_le_succ hg)
          rw [ih g _ h1 h2]

theorem replaceStr_nil (pat rep : Str) : replaceStr pat rep [] = [] := rfl

theorem replaceStr_cons_neg {pat : Str} (rep : Str) {c : Char} {r : Str}
    (h : beginsWith pat (c :: r) = false) :
    replaceStr pat rep (c :: r) = c :: replaceStr pat rep r := by
  simp only [replaceStr, List.length_cons, rsGo, h, Bool.false_eq_true, if_false]

theorem replaceStr_append_self {pat : Str} (hp : pat ≠ []) (rep x : Str) :
    replaceStr pat rep (pat ++ x) = rep ++ replaceStr pat rep x := by
  cases pat with
  | nil => exact absurd rfl hp
  | cons p ps =>
    have hb : beginsWith (p :: ps) (p :: (ps ++ x)) = true := by
      simpa using beginsWith_append_self (p :: ps) x
    show rsGo (p :: ps) rep (p :: (ps ++ x)).length (p :: (ps ++ x)) = _
    simp only [List.length_cons, rsGo, hb, if_true]
    congr 1
    rw [show ps.length + 1 - 1 = ps.length from rfl, List.drop_left]
    exact rsGo_mono (p :: ps) rep hp _ _ x (by simp) le_rfl

theorem replaceStr_of_not_hasSub {pat rep : Str} (hp : pat ≠ []) :
    ∀ {s : Str}, ¬ HasSub pat s → replaceStr pat rep s = s := by
  intro s
  induction s with
  | nil => intro _; rfl
  | cons c r ih =>
    intro h
    have hb : beginsWith pat (c :: r) = false := by
      cases hb : beginsWith pat (c :: r) with
      | false => rfl
      | true =>
        rcases (beginsWith_iff pat (c :: r)).mp hb with ⟨t, ht⟩
        exact absurd ⟨[], t, by simpa using ht⟩ h
    rw [replaceStr_cons_neg rep hb, ih]
    intro ⟨a, b, hab⟩
    exact h ⟨c :: a, b, by simp [hab]⟩

theorem mem_replaceStr {pat rep : Str} :
    ∀ {f : Nat} {s : Str} {c : Char}, c ∈ rsGo pat rep f s → c ∈ s ∨ c ∈ rep := by
  intro f
  induction f with
  | zero =>
    intro s c h
    cases s with
    | nil => simp [rsGo] at h
    | cons a r => exact Or.inl h
  | succ f ih =>
    intro s c h
    cases s with
    | nil => simp [rsGo] at h
    | cons a r =>
      simp only [rsGo] at h
      by_cases hb : beginsWith pat (a :: r) = true
      · simp only [hb, if_true, List.mem_append] at h
        rcases h with h | h
        · exact Or.inr h
        · rcases ih h with h | h
          · exact Or.inl (List.mem_cons_of_mem a (List.mem_of_mem_drop h))
          · exact Or.inr h
      · simp only [Bool.not_eq_true] at hb
        simp only [hb, Bool.false_eq_true, if_false, List.mem_cons] at h
        rcases h with rfl | h
        · exact Or.inl (List.mem_cons_self c r)
        · rcases ih h with h | h
          · exact Or.inl (List.mem_cons_of_mem a h)
          · exact Or.inr h

/-!
Lemmas for the tag-stripping scanner.
-/

theorem stGo_out_cons_ne {c : Char} (h : c ≠ '<') (r : Str) :
    stGo none (c :: r) = c :: stGo none r := by
  simp [stGo, h]

theorem stGo_out_append {pre : Str} (h : '<' ∉ pre) (s : Str) :
    stGo none (pre ++ s) = pre ++ stGo none s := by
  induction pre with
  | nil => rfl
  | cons c p ih =>
    have hc : c ≠ '<' := fun hh => h (hh ▸ List.mem_cons_self c p)
    have hp : '<' ∉ p := fun hm => h (List.mem_cons_of_mem _ hm)
    simp only [List.cons_append, stGo_out_cons_ne hc, ih hp]

theorem stGo_in_append {inner : Str} (h : '>' ∉ inner) (buf rest : Str) :
    stGo (some buf) (inner ++ '>' :: rest) = stGo none rest := by
  induction inner generalizing buf with
  | nil => simp [stGo]
  | cons c p ih =>
    have hc : c ≠ '>' := fun hh => h (hh ▸ List.mem_cons_self c p)
    have hp : '>' ∉ p := fun hm => h (List.mem_cons_of_mem _ hm)
    simp only [List.cons_append, stGo, hc, if_false]
    exact ih hp (c :: buf)

theorem stGo_in_no_gt {r : Str} (h : '>' ∉ r) (buf : Str) :
    stGo (some buf) r = buf.reverse ++ r := by
  induction r generalizing buf with
  | nil => simp [stGo]
  | cons c t ih =>
    have hc : c ≠ '>' := fun hh => h (hh ▸ List.mem_cons_self c t)
    have ht : '>' ∉ t := fun hm => h (List.mem_cons_of_mem _ hm)
    simp [stGo, hc, ih ht]

theorem stripTags_of_not_hasAngle : ∀ {s : Str}, ¬ HasAngle s → stripTags s = s := by
  intro s
  induction s with
  | nil => intro _; rfl
  | cons c r ih =>
    intro h
    by_cases hc : c = '<'
    · subst hc
      have hr : '>' ∉ r := by
        intro hm
        rcases List.append_of_mem hm with ⟨m, b, rfl⟩
        exact h ⟨[], m, b, rfl⟩
      show stGo none ('<' :: r) = '<' :: r
      simp only [stGo, if_pos rfl]
      simpa using stGo_in_no_gt hr ['<']
    · rw [show stripTags (c :: r) = stGo none (c :: r) from rfl, stGo_out_cons_ne hc]
      have hrr : ¬ HasAngle r := by
        rintro ⟨a, m, b, rfl⟩
        exact h ⟨c :: a, m, b, rfl⟩
      exact congrArg (c :: ·) (ih hrr)

/-!
Lemmas for the anchor-removal scanner.
-/

theorem dropThrough_length {ch : Char} :
    ∀ {l l' : Str}, dropThrough ch l = some l' → l'.length < l.length := by
  intro l
  induction l with
  | nil => intro l' h; cases h
  | cons x r ih =>
    intro l' h
    simp only [dropThrough] at h
    by_cases hx : x = ch
    · rw [if_pos hx] at h
      cases h
      simp
    · rw [if_neg hx] at h
      exact Nat.lt_trans (ih h) (by simp)

theorem dropThrough_mem {ch : Char} :
    ∀ {l l' : Str}, dropThrough ch l = some l' → ch ∈ l := by
  intro l
  induction l with
  | nil => intro l' h; cases h
  | cons x r ih =>
    intro l' h
    simp only [dropThrough] at h
    by_cases hx : x = ch
    · exact hx ▸ List.mem_cons_self x r
    · rw [if_neg hx] at h
      exact List.mem_cons_of_mem _ (ih h)

theorem dropThrough_append {ch : Char} {pre : Str} (h : ch ∉ pre) (z : Str) :
    dropThrough ch (pre ++ ch :: z) = some z := by
  induction pre with
  | nil => simp [dropThrough]
  | cons c p ih =>
    have hc : c ≠ ch := fun hh => h (hh ▸ List.mem_cons_self c p)
    have hp : ch ∉ p := fun hm => h (List.mem_cons_of_mem _ hm)
    simp [dropThrough, hc, ih hp]

theorem dropWhile_no_lt {txt : Str} (h : '<' ∉ txt) (z : Str) :
    (txt ++ '<' :: z).dropWhile (fun x => !(decide (x = '<'))) = '<' :: z := by
  induction txt with
  | nil => simp [List.dropWhile]
  | cons c t ih =>
    have hc : c ≠ '<' := fun hh => h (hh ▸ List.mem_cons_self c t)
    have ht : '<' ∉ t := fun hm => h (List.mem_cons_of_mem _ hm)
    simp [List.dropWhile, hc, ih ht]

theorem tryAnchor_ne {c : Char} (h : c ≠ '<') (r : Str) : tryAnchor (c :: r) = none := by
  cases r with
  | nil => rfl
  | cons a r0 => simp [tryAnchor, h]

theorem tryAnchor_bound : ∀ {s rest : Str}, tryAnchor s = some rest → rest.length < s.length := by
  intro s rest h
  cases s with
  | nil => cases h
  | cons c t =>
    cases t with
    | nil => cases h
    | cons a r0 =>
      simp only [tryAnchor] at h
      split at h
      · cases hd : dropThrough '>' r0 with
        | none => rw [hd] at h; cases h
        | some r1 =>
          rw [hd] at h
          have hb1 : r1.length < r0.length := dropThrough_length hd
          have hb2 : (r1.dropWhile (fun x => !(decide (x = '<')))).length ≤ r1.length :=
            (List.dropWhile_sublist _).length_le
          have h' : (match r1.dropWhile (fun x => !(decide (x = '<'))) with
            | '<' :: '/' :: a2 :: '>' :: tail =>
              if a2 = 'a' ∨ a2 = 'A' then some tail else none
            | _ => none) = some rest := h
          clear h
          split at h'
          next a2 tail heq =>
            by_cases ha2 : a2 = 'a' ∨ a2 = 'A'
            · rw [if_pos ha2] at h'
              cases h'
              have h4 : rest.length + 4
                  = (r1.dropWhile (fun x => !(decide (x = '<')))).length := by
                rw [heq]; simp
              simp only [List.length_cons]
              omega
            · rw [if_neg ha2] at h'; cases h'
          next => cases h'
      · cases h

theorem raGo_mono : ∀ (f g : Nat) (s : Str), s.length ≤ f → s.length ≤ g →
    raGo f s = raGo g s := by
  intro f
  induction f with
  | zero =>
    intro g s hf _
    cases s with
    | nil => cases g <;> rfl
    | cons c r => simp at hf
  | succ f ih =>
    intro g s hf hg
    cases s with
    | nil => cases g <;> rfl
    | cons c r =>
      cases g with
      | zero => simp at hg
      | succ g =>
        simp only [raGo]
        cases ha : tryAnchor (c :: r) with
        | some rest =>
          have hb := tryAnchor_bound ha
          simp only [List.length_cons] at hb hf hg
          exact ih g rest (by omega) (by omega)
        | none =>
          rw [ih g r (by simpa using Nat.le_of_succ_le_succ hf)
            (by simpa using Nat.le_of_succ_le_succ hg)]

theorem removeAnchors_cons_none {c : Char} {r : Str} (h : tryAnchor (c :: r) = none) :
    removeAnchors (c :: r) = c :: removeAnchors r := by
  simp only [removeAnchors, List.length_cons, raGo, h]

theorem removeAnchors_cons_some {c : Char} {r rest : Str}
    (h : tryAnchor (c :: r) = some rest) :
    removeAnchors (c :: r) = removeAnchors rest := by
  have hb := tryAnchor_bound h
  simp only [List.length_cons] at hb
  simp only [removeAnchors, List.length_cons, raGo, h]
  exact raGo_mono r.length rest.length rest (by omega) le_rfl

theorem tryAnchor_anchor {attrs txt : Str} (post : Str)
    (ha : '>' ∉ attrs) (ht : '<' ∉ txt) :
    tryAnchor ('<' :: 'a' :: (attrs ++ '>' :: (txt ++ '<' :: '/' :: 'a' :: '>' :: post)))
      = some post := by
  have h1 : dropThrough '>' (attrs ++ '>' :: (txt ++ '<' :: '/' :: 'a' :: '>' :: post))
      = some (txt ++ '<' :: '/' :: 'a' :: '>' :: post) := dropThrough_append ha _
  have h2 : (txt ++ '<' :: '/' :: 'a' :: '>' :: post).dropWhile (fun x => !(decide (x = '<')))
      = '<' :: '/' :: 'a' :: '>' :: post := dropWhile_no_lt ht _
  simp [tryAnchor, h1, h2]

theorem removeAnchors_anchor {pre attrs txt : Str} (post : Str)
    (hp : '<' ∉ pre) (ha : '>' ∉ attrs) (ht : '<' ∉ txt) :
    removeAnchors
        (pre ++ '<' :: 'a' :: (attrs ++ '>' :: (txt ++ '<' :: '/' :: 'a' :: '>' :: post)))
      = pre ++ removeAnchors post := by
  induction pre with
  | nil =>
    rw [List.nil_append, List.nil_append]
    exact removeAnchors_cons_some (tryAnchor_anchor post ha ht)
  | cons c p ih =>
    have hc : c ≠ '<' := fun hh => hp (hh ▸ List.mem_cons_self c p)
    have hpp : '<' ∉ p := fun hm => hp (List.mem_cons_of_mem _ hm)
    rw [List.cons_append, removeAnchors_cons_none (tryAnchor_ne hc _), ih hpp,
      List.cons_append]

theorem removeAnchors_of_not_hasAngle : ∀ {s : Str}, ¬ HasAngle s → removeAnchors s = s := by
  intro s
  induction s with
  | nil => intro _; rfl
  | cons c r ih =>
    intro h
    have ha : tryAnchor (c :: r) = none := by
      cases r with
      | nil => rfl
      | cons a r0 =>
        simp only [tryAnchor]
        split
        · rename_i hcond
          cases hd : dropThrough '>' r0 with
          | none => rfl
          | some r1 =>
            exfalso
            have hgt : '>' ∈ r0 := dropThrough_mem hd
            rcases List.append_of_mem hgt with ⟨m, b, rfl⟩
            refine h ⟨[], a :: m, b, ?_⟩
            rw [hcond.1]
            simp
        · rfl
    rw [removeAnchors_cons_none ha]
    have hrr : ¬ HasAngle r := by
      rintro ⟨a, m, b, rfl⟩
      exact h ⟨c :: a, m, b, rfl⟩
    rw [ih hrr]

theorem decodeEntities_of_no_entities {s : Str}
    (h : ∀ e : Ent, ¬ HasSub (Ent.str e) s) : decodeEntities s = s := by
  unfold decodeEntities
  rw [replaceStr_of_not_hasSub (by decide) (show ¬ HasSub ampS s from h .amp),
    replaceStr_of_not_hasSub (by decide) (show ¬ HasSub ltS s from h .lt),
    replaceStr_of_not_hasSub (by decide) (show ¬ HasSub gtS s from h .gt),
    replaceStr_of_not_hasSub (by decide) (show ¬ HasSub quotS s from h .quot),
    replaceStr_of_not_hasSub (by decide) (show ¬ HasSub aposS s from h .apos)]

/-- Claim C2: for every body string containing an anchor element wrapping
non-tag text, the anchor-removal pass of the body-sanitizer removes both
the anchor's tag markup and the anchor's enclosed text entirely; in
particular, the input `"Check this <a href=\"http://x\">x.com</a> out"`
yields `"Check this  out"` before whitespace normalization (and also after
it, since that input needs no normalization). -/
theorem claim_C2 :
    (∀ pre attrs txt post : Str, '<' ∉ pre → '>' ∉ attrs → '<' ∉ txt →
      removeAnchors
          (pre ++ '<' :: 'a' :: (attrs ++ '>' :: (txt ++ '<' :: '/' :: 'a' :: '>' :: post)))
        = pre ++ removeAnchors post)
    ∧ decodeEntities (stripTags (removeAnchors
        "Check this <a href=\"http://x\">x.com</a> out".data)) = "Check this  out".data
    ∧ sanitizeBody "Check this <a href=\"http://x\">x.com</a> out".data
        = "Check this  out".data :=
  ⟨fun _ _ _ post hp ha ht => removeAnchors_anchor post hp ha ht, by decide, by decide⟩

/-- Witness for C2 at the claim's own example, split at its anchor. -/
theorem claim_C2_witness :
    ('<' ∉ "Check this ".data) ∧ ('>' ∉ " href=\"http://x\"".data) ∧ ('<' ∉ "x.com".data)
    ∧ removeAnchors
        ("Check this ".data ++ '<' :: 'a' ::
          (" href=\"http://x\"".data ++ '>' ::
            ("x.com".data ++ '<' :: '/' :: 'a' :: '>' :: " out".data)))
      = "Check this ".data ++ removeAnchors " out".data :=
  ⟨by decide, by decide, by decide,
    claim_C2.1 "Check this ".data " href=\"http://x\"".data "x.com".data " out".data
      (by decide) (by decide) (by decide)⟩

/-- Claim C3: end-to-end, the title `"<b>Alert</b>"` sanitizes to
`"Alert"`, and the body `"New message from <a ...>chat.example</a>"`
followed by four newlines and `"Hello"` sanitizes to
`"New message from "` followed by exactly two newlines and `"Hello"`. -/
theorem claim_C3 :
    stripHtml "<b>Alert</b>".data = "Alert".data
    ∧ sanitizeBody
        "New message from <a href=\"http://chat.example\">chat.example</a>\n\n\n\nHello".data
      = "New message from \n\nHello".data := by
  constructor <;> decide

/-- Claim C4 as stated is false: the body sanitizer also collapses runs of
three-or-more newlines, so a tag-free, entity-free string is not always
returned merely whitespace-trimmed.  On `"a\n\n\n\nb"` (no tags, no
entities) the body sanitizer returns `"a\n\nb"`, not the trimmed original. -/
theorem claim_C4_counterexample :
    (¬ HasAngle "a\n\n\n\nb".data)
    ∧ (∀ e : Ent, ¬ HasSub (Ent.str e) "a\n\n\n\nb".data)
    ∧ sanitizeBody "a\n\n\n\nb".data ≠ trimWs "a\n\n\n\nb".data := by
  refine ⟨by decide, by decide, by decide⟩

/-- Claim C4, amended: for every string containing no `<...>` span and no
entity sequence, the title sanitizer returns it whitespace-trimmed, and the
body sanitizer returns it whitespace-normalized (leading blank lines
removed, trimmed, and newline runs of three or more collapsed to two). -/
theorem claim_C4_amended (s : Str) (h1 : ¬ HasAngle s)
    (h2 : ∀ e : Ent, ¬ HasSub (Ent.str e) s) :
    stripHtml s = trimWs s
    ∧ sanitizeBody s = collapseNl (trimWs (dropLeadingBlank s)) := by
  by_cases hs : s = []
  · subst hs
    exact ⟨rfl, by decide⟩
  · constructor
    · show (if s = [] then s else trimWs (decodeEntities (stripTags s))) = trimWs s
      rw [if_neg hs, stripTags_of_not_hasAngle h1, decodeEntities_of_no_entities h2]
    · show (if s = [] then s
          else collapseNl (trimWs (dropLeadingBlank
            (decodeEntities (stripTags (removeAnchors s))))))
        = collapseNl (trimWs (dropLeadingBlank s))
      rw [if_neg hs, removeAnchors_of_not_hasAngle h1, stripTags_of_not_hasAngle h1,
        decodeEntities_of_no_entities h2]

/-- Witness for the amended C4 on a concrete tag-free, entity-free string. -/
theorem claim_C4_amended_witness :
    (¬ HasAngle "  a < b\n\n\n\nc  ".data)
    ∧ (∀ e : Ent, ¬ HasSub (Ent.str e) "  a < b\n\n\n\nc  ".data)
    ∧ stripHtml "  a < b\n\n\n\nc  ".data = trimWs "  a < b\n\n\n\nc  ".data
    ∧ sanitizeBody "  a < b\n\n\n\nc  ".data
        = collapseNl (trimWs (dropLeadingBlank "  a < b\n\n\n\nc  ".data)) := by
  refine ⟨by decide, by decide, ?_, ?_⟩
  · exact (claim_C4_amended _ (by decide) (by decide)).1
  · exact (claim_C4_amended _ (by decide) (by decide)).2

/-!
Claim C1: behaviour of the title sanitizer on strings made only of
well-formed tags and the five entities.
-/

theorem mem_catL {c : Char} : ∀ {l : List Str}, c ∈ catL l → ∃ s ∈ l, c ∈ s := by
  intro l
  induction l with
  | nil => intro h; cases h
  | cons s rest ih =>
    intro h
    rcases List.mem_append.mp h with h | h
    · exact ⟨s, List.mem_cons_self _ _, h⟩
    · rcases ih h with ⟨s', hs', hc⟩
      exact ⟨s', List.mem_cons_of_mem _ hs', hc⟩

theorem entsOf_mem : ∀ {ts : List Tok} {e : Ent}, e ∈ entsOf ts → Tok.ent e ∈ ts := by
  intro ts
  induction ts with
  | nil => intro e h; cases h
  | cons t rest ih =>
    intro e h
    cases t with
    | tag inner => exact List.mem_cons_of_mem _ (ih h)
    | ent e' =>
      rcases List.mem_cons.mp h with rfl | h
      · exact List.mem_cons_self _ _
      · exact List.mem_cons_of_mem _ (ih h)

theorem stripTags_renderToks : ∀ {ts : List Tok}, (∀ t ∈ ts, t.wf) →
    stripTags (renderToks ts) = catL ((entsOf ts).map Ent.str) := by
  intro ts
  induction ts with
  | nil => intro _; rfl
  | cons t rest ih =>
    intro h
    have hw := h t (List.mem_cons_self _ _)
    have hts : ∀ t' ∈ rest, t'.wf := fun t' h' => h t' (List.mem_cons_of_mem _ h')
    cases t with
    | tag inner =>
      show stGo none (('<' :: (inner ++ ['>'])) ++ renderToks rest)
        = catL ((entsOf rest).map Ent.str)
      have hsh : ('<' :: (inner ++ ['>'])) ++ renderToks rest
          = '<' :: (inner ++ '>' :: renderToks rest) := by simp
      rw [hsh]
      have hstep : stGo none ('<' :: (inner ++ '>' :: renderToks rest))
          = stGo (some ['<']) (inner ++ '>' :: renderToks rest) := by
        simp [stGo]
      rw [hstep, stGo_in_append hw.2]
      exact ih hts
    | ent e =>
      show stGo none (e.str ++ renderToks rest) = e.str ++ catL ((entsOf rest).map Ent.str)
      rw [stGo_out_append (show '<' ∉ e.str by cases e <;> decide)]
      exact congrArg (e.str ++ ·) (ih hts)

theorem beginsWith_take_false : ∀ {sfx pat : Str},
    beginsWith (pat.take sfx.length) sfx = false →
    ∀ x, beginsWith pat (sfx ++ x) = false := by
  intro sfx
  induction sfx with
  | nil => intro pat h x; simp [beginsWith] at h
  | cons c cs ih =>
    intro pat h x
    cases pat with
    | nil => simp [beginsWith] at h
    | cons p ps =>
      simp only [List.length_cons, List.take_succ_cons, beginsWith] at h
      show (p == c && beginsWith ps (cs ++ x)) = false
      cases hpc : p == c with
      | false => simp
      | true =>
        rw [hpc, Bool.true_and] at h
        simp [ih h x]

theorem replaceStr_skip_chunk {pat rep : Str} : ∀ (chunk : Str),
    (∀ sfx ∈ chunk.tails, sfx ≠ [] → beginsWith (pat.take sfx.length) sfx = false) →
    ∀ x, replaceStr pat rep (chunk ++ x) = chunk ++ replaceStr pat rep x := by
  intro chunk
  induction chunk with
  | nil => intro _ x; rfl
  | cons c cs ih =>
    intro h x
    have hmem : (c :: cs) ∈ (c :: cs).tails := by
      rw [List.tails_cons]
      exact List.mem_cons_self _ _
    have hb : beginsWith pat (c :: (cs ++ x)) = false := by
      have := beginsWith_take_false (h (c :: cs) hmem (by simp)) x
      simpa using this
    rw [List.cons_append, replaceStr_cons_neg rep hb]
    have hcs : ∀ sfx ∈ cs.tails, sfx ≠ [] → beginsWith (pat.take sfx.length) sfx = false :=
      fun sfx hs hne => h sfx (by rw [List.tails_cons]; exact List.mem_cons_of_mem _ hs) hne
    rw [ih hcs x, List.cons_append]

theorem pass_amp : ∀ (es : List Ent),
    replaceStr ampS ['&'] (catL (es.map Ent.str)) = catL (es.map entStep1) := by
  intro es
  induction es with
  | nil => rfl
  | cons e rest ih =>
    cases e with
    | amp =>
      show replaceStr ampS ['&'] (ampS ++ catL (rest.map Ent.str))
        = '&' :: catL (rest.map entStep1)
      rw [replaceStr_append_self (by decide), ih]
      rfl
    | lt =>
      show replaceStr ampS ['&'] (ltS ++ catL (rest.map Ent.str))
        = ltS ++ catL (rest.map entStep1)
      rw [replaceStr_skip_chunk ltS (by decide), ih]
    | gt =>
      show replaceStr ampS ['&'] (gtS ++ catL (rest.map Ent.str))
        = gtS ++ catL (rest.map entStep1)
      rw [replaceStr_skip_chunk gtS (by decide), ih]
    | quot =>
      show replaceStr ampS ['&'] (quotS ++ catL (rest.map Ent.str))
        = quotS ++ catL (rest.map entStep1)
      rw [replaceStr_skip_chunk quotS (by decide), ih]
    | apos =>
      show replaceStr ampS ['&'] (aposS ++ catL (rest.map Ent.str))
        = aposS ++ catL (rest.map entStep1)
      rw [replaceStr_skip_chunk aposS (by decide), ih]

theorem step1_chars {es : List Ent} (h : ∀ e ∈ es, E3 e) :
    ∀ c ∈ catL (es.map entStep1), c ∈ ['&', 'q', 'u', 'o', 't', ';', '#', '3', '9'] := by
  intro c hc
  rcases mem_catL hc with ⟨s, hs, hcs⟩
  rcases List.mem_map.mp hs with ⟨e, he, rfl⟩
  rcases h e he with rfl | rfl | rfl
  · exact (show ∀ x ∈ entStep1 Ent.amp, x ∈ ['&', 'q', 'u', 'o', 't', ';', '#', '3', '9']
      by decide) c hcs
  · exact (show ∀ x ∈ entStep1 Ent.quot, x ∈ ['&', 'q', 'u', 'o', 't', ';', '#', '3', '9']
      by decide) c hcs
  · exact (show ∀ x ∈ entStep1 Ent.apos, x ∈ ['&', 'q', 'u', 'o', 't', ';', '#', '3', '9']
      by decide) c hcs

theorem pass_lt_id {es : List Ent} (h : ∀ e ∈ es, E3 e) :
    replaceStr ltS ['<'] (catL (es.map entStep1)) = catL (es.map entStep1) := by
  apply replaceStr_of_not_hasSub (by decide)
  apply not_hasSub_of_not_mem (show 'l' ∈ ltS by decide)
  intro hm
  have := step1_chars h 'l' hm
  simp at this

theorem pass_gt_id {es : List Ent} (h : ∀ e ∈ es, E3 e) :
    replaceStr gtS ['>'] (catL (es.map entStep1)) = catL (es.map entStep1) := by
  apply replaceStr_of_not_hasSub (by decide)
  apply not_hasSub_of_not_mem (show 'g' ∈ gtS by decide)
  intro hm
  have := step1_chars h 'g' hm
  simp at this

theorem step1_head_no_quot : ∀ (es : List Ent),
    beginsWith ['q', 'u', 'o', 't', ';'] (catL (es.map entStep1)) = false := by
  intro es
  cases es with
  | nil => rfl
  | cons e rest => cases e <;> rfl

theorem pass_quot {es : List Ent} (h : ∀ e ∈ es, E3 e) :
    replaceStr quotS ['"'] (catL (es.map entStep1)) = catL (es.map entStep4) := by
  induction es with
  | nil => rfl
  | cons e rest ih =>
    have he := h e (List.mem_cons_self _ _)
    have hrest : ∀ e' ∈ rest, E3 e' := fun e' h' => h e' (List.mem_cons_of_mem _ h')
    rcases he with rfl | rfl | rfl
    · show replaceStr quotS ['"'] ('&' :: catL (rest.map entStep1))
        = '&' :: catL (rest.map entStep4)
      have hb : beginsWith quotS ('&' :: catL (rest.map entStep1)) = false := by
        show (('&' : Char) == '&' && beginsWith ['q', 'u', 'o', 't', ';'] (catL (rest.map entStep1)))
          = false
        rw [step1_head_no_quot rest]
        rfl
      rw [replaceStr_cons_neg ['"'] hb, ih hrest]
    · show replaceStr quotS ['"'] (quotS ++ catL (rest.map entStep1))
        = '"' :: catL (rest.map entStep4)
      rw [replaceStr_append_self (by decide), ih hrest]
      rfl
    · show replaceStr quotS ['"'] (aposS ++ catL (rest.map entStep1))
        = aposS ++ catL (rest.map entStep4)
      rw [replaceStr_skip_chunk aposS (by decide), ih hrest]

theorem step4_head_no_apos : ∀ (es : List Ent),
    beginsWith ['#', '3', '9', ';'] (catL (es.map entStep4)) = false := by
  intro es
  cases es with
  | nil => rfl
  | cons e rest => cases e <;> rfl

theorem pass_apos {es : List Ent} (h : ∀ e ∈ es, E3 e) :
    replaceStr aposS ['\''] (catL (es.map entStep4)) = catL (es.map entStep5) := by
  induction es with
  | nil => rfl
  | cons e rest ih =>
    have he := h e (List.mem_cons_self _ _)
    have hrest : ∀ e' ∈ rest, E3 e' := fun e' h' => h e' (List.mem_cons_of_mem _ h')
    rcases he with rfl | rfl | rfl
    · show replaceStr aposS ['\''] ('&' :: catL (rest.map entStep4))
        = '&' :: catL (rest.map entStep5)
      have hb : beginsWith aposS ('&' :: catL (rest.map entStep4)) = false := by
        show (('&' : Char) == '&' && beginsWith ['#', '3', '9', ';'] (catL (rest.map entStep4)))
          = false
        rw [step4_head_no_apos rest]
        rfl
      rw [replaceStr_cons_neg ['\''] hb, ih hrest]
    · show replaceStr aposS ['\''] (['"'] ++ catL (rest.map entStep4))
        = ['"'] ++ catL (rest.map entStep5)
      rw [replaceStr_skip_chunk ['"'] (by decide), ih hrest]
    · show replaceStr aposS ['\''] (aposS ++ catL (rest.map entStep4))
        = '\'' :: catL (rest.map entStep5)
      rw [replaceStr_append_self (by decide), ih hrest]
      rfl

theorem step5_eq_dch {es : List Ent} (h : ∀ e ∈ es, E3 e) :
    catL (es.map entStep5) = es.map Ent.dch := by
  induction es with
  | nil => rfl
  | cons e rest ih =>
    have he := h e (List.mem_cons_self _ _)
    have hrest : ∀ e' ∈ rest, E3 e' := fun e' h' => h e' (List.mem_cons_of_mem _ h')
    rcases he with rfl | rfl | rfl <;>
      · show _ ++ catL (rest.map entStep5) = _ :: rest.map Ent.dch
        rw [ih hrest]
        rfl

theorem dropWhile_of_all_false {p : Char → Bool} :
    ∀ {l : Str}, (∀ c ∈ l, p c = false) → l.dropWhile p = l := by
  intro l h
  cases l with
  | nil => rfl
  | cons c t => simp [List.dropWhile, h c (List.mem_cons_self _ _)]

theorem trimWs_of_no_space {s : Str} (h : ∀ c ∈ s, spaceB c = false) : trimWs s = s := by
  unfold trimWs
  rw [dropWhile_of_all_false h,
    dropWhile_of_all_false (fun c hc => h c (List.mem_reverse.mp hc)), List.reverse_reverse]

theorem dch_chars {es : List Ent} (h : ∀ e ∈ es, E3 e) :
    ∀ c ∈ es.map Ent.dch, c = '&' ∨ c = '"' ∨ c = '\'' := by
  intro c hc
  rcases List.mem_map.mp hc with ⟨e, he, rfl⟩
  rcases h e he with rfl | rfl | rfl <;> decide

/-- Claim C1 is false as stated: on an input consisting only of the five
known entities (here `&lt;&amp;&gt;`, i.e. the tokens `lt`, `amp`, `gt`,
all well-formed), the title sanitizer strips tags before decoding entities,
so the decoded angle brackets survive into the output `"<&>"`, which does
contain a substring of the form `<...>`. -/
theorem claim_C1_counterexample :
    (∀ t ∈ [Tok.ent .lt, Tok.ent .amp, Tok.ent .gt], t.wf)
    ∧ renderToks [Tok.ent .lt, Tok.ent .amp, Tok.ent .gt] = "&lt;&amp;&gt;".data
    ∧ stripHtml (renderToks [Tok.ent .lt, Tok.ent .amp, Tok.ent .gt]) = ['<', '&', '>']
    ∧ HasAngle (stripHtml (renderToks [Tok.ent .lt, Tok.ent .amp, Tok.ent .gt])) := by
  refine ⟨by decide, by decide, by decide, by decide⟩

/-- Claim C1, amended: because the title sanitizer strips tags before
decoding entities, entities that encode angle brackets can reintroduce
`<`/`>`.  For every input consisting only of well-formed tags and the
entities `&amp;`, `&quot;`, `&#39;`, the output contains no substring of
the form `<...>` and no remaining raw entity sequence. -/
theorem claim_C1_amended (ts : List Tok) (h1 : ∀ t ∈ ts, t.wf)
    (h2 : ∀ t ∈ ts, t.noAngleEnt) :
    ¬ HasAngle (stripHtml (renderToks ts))
    ∧ ∀ e : Ent, ¬ HasSub (Ent.str e) (stripHtml (renderToks ts)) := by
  have hE3 : ∀ e ∈ entsOf ts, E3 e := fun e he => h2 (Tok.ent e) (entsOf_mem he)
  by_cases hnil : renderToks ts = []
  · rw [show stripHtml (renderToks ts) = [] by rw [hnil]; rfl]
    constructor
    · rintro ⟨a, m, b, hh⟩
      simp at hh
    · rintro e ⟨a, b, hh⟩
      have : Ent.str e ≠ [] := by cases e <;> decide
      rcases List.append_eq_nil.mp hh.symm with ⟨h1', _⟩
      rcases List.append_eq_nil.mp h1' with ⟨_, h3'⟩
      exact this h3'
  · have hout : stripHtml (renderToks ts) = (entsOf ts).map Ent.dch := by
      show (if renderToks ts = [] then renderToks ts
          else trimWs (decodeEntities (stripTags (renderToks ts))))
        = (entsOf ts).map Ent.dch
      rw [if_neg hnil, stripTags_renderToks h1]
      unfold decodeEntities
      rw [pass_amp, pass_lt_id hE3, pass_gt_id hE3, pass_quot hE3, pass_apos hE3,
        step5_eq_dch hE3]
      apply trimWs_of_no_space
      intro c hc
      rcases dch_chars hE3 c hc with rfl | rfl | rfl <;> decide
    rw [hout]
    constructor
    · rintro ⟨a, m, b, hh⟩
      have hmem : '<' ∈ (entsOf ts).map Ent.dch := by
        rw [hh]
        simp
      rcases dch_chars hE3 '<' hmem with h | h | h <;> simp at h
    · intro e ⟨a, b, hh⟩
      have hwit : ∀ c ∈ Ent.str e, c ∈ (entsOf ts).map Ent.dch :=
        HasSub.mem ⟨a, b, hh⟩
      have hchar : ∃ c ∈ Ent.str e, c ≠ '&' ∧ c ≠ '"' ∧ c ≠ '\'' := by
        cases e <;> decide
      rcases hchar with ⟨c, hc1, hc2, hc3, hc4⟩
      rcases dch_chars hE3 c (hwit c hc1) with h | h | h
      · exact hc2 h
      · exact hc3 h
      · exact hc4 h

/-- Witness for the amended C1 on `<b>&amp;&quot;</b>`. -/
theorem claim_C1_amended_witness :
    (∀ t ∈ [Tok.tag "b".data, Tok.ent .amp, Tok.ent .quot, Tok.tag "/b".data], t.wf)
    ∧ (∀ t ∈ [Tok.tag "b".data, Tok.ent .amp, Tok.ent .quot, Tok.tag "/b".data], t.noAngleEnt)
    ∧ (¬ HasAngle (stripHtml (renderToks
          [Tok.tag "b".data, Tok.ent .amp, Tok.ent .quot, Tok.tag "/b".data]))
       ∧ ∀ e : Ent, ¬ HasSub (Ent.str e) (stripHtml (renderToks
          [Tok.tag "b".data, Tok.ent .amp, Tok.ent .quot, Tok.tag "/b".data]))) :=
  ⟨by decide, by decide, claim_C1_amended _ (by decide) (by decide)⟩

/-!
Correlation-map lemmas (JavaScript `Map` semantics over an association
list).
-/

theorem mapGet_mapSet_self (k : Str) (v : TabInfo) :
    ∀ m : CorrMap, mapGet k (mapSet k v m) = some v := by
  intro m
  induction m with
  | nil => simp [mapSet, mapGet]
  | cons e rest ih =>
    obtain ⟨k', v'⟩ := e
    by_cases hk : k' = k
    · simp [mapSet, hk, mapGet]
    · simp [mapSet, hk, mapGet, ih]

theorem keysNodup_nil : KeysNodup [] := List.nodup_nil

theorem keysNodup_cons {k' : Str} {v' : TabInfo} {rest : CorrMap} :
    KeysNodup ((k', v') :: rest) ↔ k' ∉ mapKeys rest ∧ KeysNodup rest := by
  show (List.map Prod.fst ((k', v') :: rest)).Nodup ↔ _
  rw [List.map_cons, List.nodup_cons]
  exact Iff.rfl

theorem mapGet_mapSet_ne {k k2 : Str} (h : k2 ≠ k) (v : TabInfo) :
    ∀ m : CorrMap, mapGet k2 (mapSet k v m) = mapGet k2 m := by
  intro m
  induction m with
  | nil =>
    show (if k = k2 then some v else mapGet k2 []) = mapGet k2 []
    rw [if_neg (fun hh => h hh.symm)]
  | cons e rest ih =>
    obtain ⟨k', v'⟩ := e
    by_cases hk : k' = k
    · rw [show mapSet k v ((k', v') :: rest) = (k, v) :: rest from by simp [mapSet, hk]]
      show (if k = k2 then some v else mapGet k2 rest)
        = (if k' = k2 then some v' else mapGet k2 rest)
      rw [if_neg (fun hh => h hh.symm), if_neg (fun hh => h (hh.symm.trans hk))]
    · rw [show mapSet k v ((k', v') :: rest) = (k', v') :: mapSet k v rest from by
        simp [mapSet, hk]]
      show (if k' = k2 then some v' else mapGet k2 (mapSet k v rest))
        = (if k' = k2 then some v' else mapGet k2 rest)
      rw [ih]

theorem mem_mapKeys_mapSet {x k : Str} {v : TabInfo} :
    ∀ {m : CorrMap}, x ∈ mapKeys (mapSet k v m) → x = k ∨ x ∈ mapKeys m := by
  intro m
  induction m with
  | nil =>
    intro h
    rcases List.mem_cons.mp h with rfl | h
    · exact Or.inl rfl
    · cases h
  | cons e rest ih =>
    obtain ⟨k', v'⟩ := e
    intro h
    by_cases hk : k' = k
    · subst hk
      rw [show mapSet k' v ((k', v') :: rest) = (k', v) :: rest from by simp [mapSet]] at h
      rcases List.mem_cons.mp h with rfl | h
      · exact Or.inl rfl
      · exact Or.inr (List.mem_cons_of_mem _ h)
    · rw [show mapSet k v ((k', v') :: rest) = (k', v') :: mapSet k v rest from by
        simp [mapSet, hk]] at h
      rcases List.mem_cons.mp h with rfl | h
      · exact Or.inr (List.mem_cons_self _ _)
      · rcases ih h with h | h
        · exact Or.inl h
        · exact Or.inr (List.mem_cons_of_mem _ h)

theorem keysNodup_mapSet (k : Str) (v : TabInfo) :
    ∀ {m : CorrMap}, KeysNodup m → KeysNodup (mapSet k v m) := by
  intro m
  induction m with
  | nil =>
    intro _
    exact keysNodup_cons.mpr ⟨by simp [mapKeys], keysNodup_nil⟩
  | cons e rest ih =>
    obtain ⟨k', v'⟩ := e
    intro h
    rcases keysNodup_cons.mp h with ⟨h1, h2⟩
    by_cases hk : k' = k
    · subst hk
      rw [show mapSet k' v ((k', v') :: rest) = (k', v) :: rest from by simp [mapSet]]
      exact keysNodup_cons.mpr ⟨h1, h2⟩
    · rw [show mapSet k v ((k', v') :: rest) = (k', v') :: mapSet k v rest from by
        simp [mapSet, hk]]
      refine keysNodup_cons.mpr ⟨?_, ih h2⟩
      intro hmem
      rcases mem_mapKeys_mapSet hmem with rfl | hmem
      · exact hk rfl
      · exact h1 hmem

theorem mapKeys_mapSet_of_mem {k : Str} (v : TabInfo) :
    ∀ {m : CorrMap}, k ∈ mapKeys m → mapKeys (mapSet k v m) = mapKeys m := by
  intro m
  induction m with
  | nil => intro h; cases h
  | cons e rest ih =>
    obtain ⟨k', v'⟩ := e
    intro h
    by_cases hk : k' = k
    · subst hk
      rw [show mapSet k' v ((k', v') :: rest) = (k', v) :: rest from by simp [mapSet]]
      rfl
    · rcases List.mem_cons.mp h with rfl | h
      · exact absurd rfl hk
      · rw [show mapSet k v ((k', v') :: rest) = (k', v') :: mapSet k v rest from by
          simp [mapSet, hk]]
        exact congrArg (k' :: ·) (ih h)

theorem keysNodup_filter (p : Str × TabInfo → Bool) {m : CorrMap} (h : KeysNodup m) :
    KeysNodup (m.filter p) :=
  List.Nodup.sublist (List.Sublist.map Prod.fst (List.filter_sublist m)) h

theorem mapGet_mapDelete_self (k : Str) : ∀ m : CorrMap, mapGet k (mapDelete k m) = none := by
  intro m
  induction m with
  | nil => rfl
  | cons e rest ih =>
    obtain ⟨k', v'⟩ := e
    by_cases hk : k' = k
    · simpa [mapDelete, List.filter, hk] using ih
    · simpa [mapDelete, List.filter, hk, mapGet] using ih

/-- Claim C6: the correlation table holds at most one entry per
notification id: the invariant is preserved by create, click, close and
sweep, and a create whose id collides with an existing key overwrites that
entry (same key set, new value, other keys untouched). -/
theorem claim_C6 (st : CorrMap) (h : KeysNodup st) :
    (∀ msg sender now rand f, KeysNodup (handleCreateNotification msg sender st now rand f).1)
    ∧ (∀ id wErr tErr, KeysNodup (onClicked st id wErr tErr).1)
    ∧ (∀ id byUser, KeysNodup (onClosed st id byUser))
    ∧ (∀ now, KeysNodup (sweepRun st now))
    ∧ (∀ k v, mapGet k (mapSet k v st) = some v
        ∧ (∀ k2, k2 ≠ k → mapGet k2 (mapSet k v st) = mapGet k2 st)
        ∧ (k ∈ mapKeys st → mapKeys (mapSet k v st) = mapKeys st)) := by
  refine ⟨?_, ?_, ?_, ?_, ?_⟩
  · intro msg sender now rand f
    show KeysNodup (match sender.tabId with
      | some t => if t = 0 then st
          else mapSet (notifIdOf msg now rand) ⟨t, sender.windowId, msg.url⟩ st
      | none => st)
    cases sender.tabId with
    | none => exact h
    | some t =>
      by_cases ht : t = 0
      · simpa [ht] using h
      · simpa [ht] using keysNodup_mapSet _ _ h
  · intro id wErr tErr
    unfold onClicked
    cases mapGet id st <;> exact keysNodup_filter _ h
  · intro id byUser
    exact keysNodup_filter _ h
  · intro now
    exact keysNodup_filter _ h
  · intro k v
    exact ⟨mapGet_mapSet_self k v st, fun k2 hk2 => mapGet_mapSet_ne hk2 v st,
      fun hk => mapKeys_mapSet_of_mem v hk⟩

/-- Witness for C6 on a concrete two-entry table. -/
theorem claim_C6_witness :
    KeysNodup [("a".data, (⟨1, some 2, "u".data⟩ : TabInfo)),
               ("b".data, (⟨3, none, "v".data⟩ : TabInfo))]
    ∧ (∀ now, KeysNodup (sweepRun
        [("a".data, (⟨1, some 2, "u".data⟩ : TabInfo)),
         ("b".data, (⟨3, none, "v".data⟩ : TabInfo))] now))
    ∧ mapGet "a".data (mapSet "a".data (⟨7, none, "w".data⟩ : TabInfo)
        [("a".data, (⟨1, some 2, "u".data⟩ : TabInfo)),
         ("b".data, (⟨3, none, "v".data⟩ : TabInfo))])
      = some ⟨7, none, "w".data⟩ := by
  have h := claim_C6 [("a".data, (⟨1, some 2, "u".data⟩ : TabInfo)),
    ("b".data, (⟨3, none, "v".data⟩ : TabInfo))] (by decide)
  exact ⟨by decide, h.2.2.2.1, (h.2.2.2.2 "a".data ⟨7, none, "w".data⟩).1⟩

/-- Claim C7: after a create request from a tab (truthy tab and window
ids) that was assigned identifier `I`, a click on `I` with no platform
failure focuses that window, activates that tab, clears the notification,
and leaves no correlation entry for `I`. -/
theorem claim_C7 (msg : CreateMsg) (st : CorrMap) (now : Nat) (rand : Str)
    (f : FetchOutcome) (t w : Nat) (ht : t ≠ 0) (hw : w ≠ 0) :
    (onClicked (handleCreateNotification msg ⟨some t, some w⟩ st now rand f).1
        (notifIdOf msg now rand) false false).2
      = [Effect.focusWindow w, Effect.activateTab t,
         Effect.clearNotif (notifIdOf msg now rand)]
    ∧ mapGet (notifIdOf msg now rand)
        (onClicked (handleCreateNotification msg ⟨some t, some w⟩ st now rand f).1
          (notifIdOf msg now rand) false false).1 = none := by
  have hst : (handleCreateNotification msg ⟨some t, some w⟩ st now rand f).1
      = mapSet (notifIdOf msg now rand) ⟨t, some w, msg.url⟩ st := by
    simp [handleCreateNotification, ht]
  rw [hst]
  have hget := mapGet_mapSet_self (notifIdOf msg now rand) (⟨t, some w, msg.url⟩ : TabInfo)
    st
  constructor
  · simp [onClicked, hget, focusEffects, winOf, hw, tabStep, tabOf, ht]
  · simp only [onClicked, hget]
    exact mapGet_mapDelete_self _ _

/-- Witness for C7 at a concrete request. -/
theorem claim_C7_witness :
    (onClicked (handleCreateNotification
        ⟨some "t".data, some "b".data, none, none, "http://p".data⟩
        ⟨some 4, some 9⟩ [] 5 "rnd".data .netErr).1
      (notifIdOf ⟨some "t".data, some "b".data, none, none, "http://p".data⟩ 5 "rnd".data)
      false false).2
      = [Effect.focusWindow 9, Effect.activateTab 4,
         Effect.clearNotif (notifIdOf
           ⟨some "t".data, some "b".data, none, none, "http://p".data⟩ 5 "rnd".data)]
    ∧ mapGet (notifIdOf ⟨some "t".data, some "b".data, none, none, "http://p".data⟩ 5 "rnd".data)
        (onClicked (handleCreateNotification
            ⟨some "t".data, some "b".data, none, none, "http://p".data⟩
            ⟨some 4, some 9⟩ [] 5 "rnd".data .netErr).1
          (notifIdOf ⟨some "t".data, some "b".data, none, none, "http://p".data⟩ 5 "rnd".data)
          false false).1 = none :=
  claim_C7 ⟨some "t".data, some "b".data, none, none, "http://p".data⟩ [] 5 "rnd".data
    .netErr 4 9 (by decide) (by decide)

/-- Claim C8: when the recorded tab or window no longer resolves (the
attempted focus/activate platform call throws), a click on that entry's
identifier triggers exactly one new-tab-open call, at the entry's stored
URL. -/
theorem claim_C8 (st : CorrMap) (id : Str) (i : TabInfo) (wErr tErr : Bool)
    (hget : mapGet id st = some i) (hurl : i.url ≠ [])
    (hthrow : focusThrows i wErr tErr = true) :
    (onClicked st id wErr tErr).2.filter isCreateTab = [Effect.createTab i.url] := by
  simp only [onClicked, hget]
  unfold focusThrows at hthrow
  unfold focusEffects
  cases hwin : winOf i with
  | some w =>
    rw [hwin] at hthrow
    cases wErr with
    | true =>
      simp [fallbackEffects, urlOf, hurl, List.filter_append, List.filter, isCreateTab]
    | false =>
      simp only [Bool.false_eq_true, if_false, Bool.and_eq_true] at hthrow
      cases htab : tabOf i with
      | none => rw [htab] at hthrow; simp at hthrow
      | some tt =>
        rw [htab] at hthrow
        have htErr : tErr = true := hthrow.2
        subst htErr
        simp [tabStep, htab, fallbackEffects, urlOf, hurl, List.filter_append,
          List.filter, isCreateTab]
  | none =>
    rw [hwin] at hthrow
    simp only [Bool.and_eq_true] at hthrow
    cases htab : tabOf i with
    | none => rw [htab] at hthrow; simp at hthrow
    | some tt =>
      rw [htab] at hthrow
      have htErr : tErr = true := hthrow.2
      subst htErr
      simp [tabStep, htab, fallbackEffects, urlOf, hurl, List.filter_append,
        List.filter, isCreateTab]

/-- Witness for C8: a stored entry whose tab activation throws. -/
theorem claim_C8_witness :
    mapGet "k".data [("k".data, (⟨3, none, "http://s".data⟩ : TabInfo))]
      = some ⟨3, none, "http://s".data⟩
    ∧ focusThrows ⟨3, none, "http://s".data⟩ false true = true
    ∧ (onClicked [("k".data, (⟨3, none, "http://s".data⟩ : TabInfo))] "k".data false true).2.filter
        isCreateTab = [Effect.createTab "http://s".data] :=
  ⟨by decide, by decide,
    claim_C8 [("k".data, ⟨3, none, "http://s".data⟩)] "k".data ⟨3, none, "http://s".data⟩
      false true (by decide) (by decide) (by decide)⟩

/-!
Claims C5 and C10: icon fallback and option defaulting in
`handleCreateNotification`.
-/

/-- Claim C5: whenever icon resolution yields nothing — and it yields
nothing for every fetchable URL under each of the three failure shapes
(network error, non-success response, decode error) — the dispatcher still
issues the native notification, with the bundled default icon in place of
the failed one. -/
theorem claim_C5 :
    (∀ (u : Str) (f : FetchOutcome), fetchFails f = true → beginsWith dataPre u = false →
      u ≠ [] → iconToDataUrl (some u) f = none)
    ∧ ∀ msg sender st now rand f, iconToDataUrl msg.icon f = none →
        ∃ opts : NotifOptions,
          (handleCreateNotification msg sender st now rand f).2
            = [Effect.createNotif (notifIdOf msg now rand) opts]
          ∧ opts.iconUrl = defaultIconUrl := by
  constructor
  · intro u f hf hd hu
    simp only [iconToDataUrl]
    rw [if_neg hu, hd]
    simp only [Bool.false_eq_true, if_false]
    cases f with
    | netErr => rfl
    | decodeErr => rfl
    | response ok mime bytes =>
      have hok : ok = false := by simpa [fetchFails] using hf
      simp [hok]
  · intro msg sender st now rand f hicon
    refine ⟨{ type := "basic".data,
              title := jsOrS msg.title "Notification".data,
              message := jsOrS msg.body [],
              iconUrl := jsOrS (iconToDataUrl msg.icon f) defaultIconUrl,
              priority := 0 }, rfl, ?_⟩
    show jsOrS (iconToDataUrl msg.icon f) defaultIconUrl = defaultIconUrl
    rw [hicon]
    rfl

/-- Witness for C5: a network error on a fetchable icon URL still yields a
notification with the default icon. -/
theorem claim_C5_witness :
    fetchFails FetchOutcome.netErr = true
    ∧ iconToDataUrl (some "http://e/i.png".data) FetchOutcome.netErr = none
    ∧ ∃ opts : NotifOptions,
        (handleCreateNotification
            ⟨some "t".data, some "b".data, some "http://e/i.png".data, none, "u".data⟩
            ⟨some 1, some 2⟩ [] 5 "rnd".data FetchOutcome.netErr).2
          = [Effect.createNotif (notifIdOf
              ⟨some "t".data, some "b".data, some "http://e/i.png".data, none, "u".data⟩
              5 "rnd".data) opts]
          ∧ opts.iconUrl = defaultIconUrl :=
  ⟨by decide,
    claim_C5.1 "http://e/i.png".data FetchOutcome.netErr (by decide) (by decide) (by decide),
    claim_C5.2 _ _ _ _ _ _
      (claim_C5.1 "http://e/i.png".data FetchOutcome.netErr (by decide) (by decide) (by decide))⟩

/-- Claim C10 is false as stated: the request's icon field is not passed
through to the native options unchanged — a fetchable icon URL is replaced
by an inline base64 data URL (and on failure by the bundled default).
Concretely, the request icon `http://a/b.png` with a successful
`image/png` fetch of bytes `[0, 1, 2]` becomes
`data:image/png;base64,AAEC`. -/
theorem claim_C10_counterexample :
    (handleCreateNotification
        ⟨some "t".data, some "b".data, some "http://a/b.png".data, none, "u".data⟩
        ⟨none, none⟩ [] 0 "r".data (.response true "image/png".data [0, 1, 2])).2
      = [Effect.createNotif
          (notifIdOf ⟨some "t".data, some "b".data, some "http://a/b.png".data, none,
            "u".data⟩ 0 "r".data)
          { type := "basic".data, title := "t".data, message := "b".data,
            iconUrl := "data:image/png;base64,AAEC".data, priority := 0 }]
    ∧ "data:image/png;base64,AAEC".data ≠ "http://a/b.png".data := by
  refine ⟨by decide, by decide⟩

/-- Claim C10, amended: the dispatcher issues exactly one native
notification; its title falls back to the literal `Notification` exactly
when the request title is empty or absent, its message falls back to the
empty string exactly when the body is empty or absent, its type and
priority are the constants `basic` and `0`, and its icon is the resolved
inline icon or the bundled default — the icon is not passed through
unchanged, and the tag and url fields do not appear in the options. -/
theorem claim_C10_amended (msg : CreateMsg) (sender : Sender) (st : CorrMap)
    (now : Nat) (rand : Str) (f : FetchOutcome) :
    ∃ opts : NotifOptions,
      (handleCreateNotification msg sender st now rand f).2
        = [Effect.createNotif (notifIdOf msg now rand) opts]
      ∧ (msg.title = none ∨ msg.title = some [] → opts.title = "Notification".data)
      ∧ (∀ tt, msg.title = some tt → tt ≠ [] → opts.title = tt)
      ∧ (msg.body = none ∨ msg.body = some [] → opts.message = [])
      ∧ (∀ b, msg.body = some b → b ≠ [] → opts.message = b)
      ∧ opts.type = "basic".data
      ∧ opts.priority = 0
      ∧ opts.iconUrl = jsOrS (iconToDataUrl msg.icon f) defaultIconUrl := by
  refine ⟨{ type := "basic".data,
            title := jsOrS msg.title "Notification".data,
            message := jsOrS msg.body [],
            iconUrl := jsOrS (iconToDataUrl msg.icon f) defaultIconUrl,
            priority := 0 }, rfl, ?_, ?_, ?_, ?_, rfl, rfl, rfl⟩
  · rintro (h | h) <;> simp [jsOrS, h]
  · intro tt h hne
    simp [jsOrS, h, hne]
  · rintro (h | h) <;> simp [jsOrS, h]
  · intro b h hne
    simp [jsOrS, h, hne]

/-- Witness for the amended C10: absent title and empty body fall back to
the defaults. -/
theorem claim_C10_amended_witness :
    ∃ opts : NotifOptions,
      (handleCreateNotification ⟨none, some [], none, none, "u".data⟩ ⟨none, none⟩ []
          0 "r".data FetchOutcome.netErr).2
        = [Effect.createNotif (notifIdOf ⟨none, some [], none, none, "u".data⟩ 0 "r".data)
            opts]
      ∧ opts.title = "Notification".data
      ∧ opts.message = [] := by
  obtain ⟨opts, h1, h2, _, h4, _⟩ :=
    claim_C10_amended ⟨none, some [], none, none, "u".data⟩ ⟨none, none⟩ [] 0 "r".data
      FetchOutcome.netErr
  exact ⟨opts, h1, h2 (Or.inl rfl), h4 (Or.inr rfl)⟩

/-!
Claim C9: the periodic sweep and timestamp-embedded identifiers.
-/

theorem digitChar_spec {d : Nat} (h : d < 10) :
    (digitChar d).isDigit = true ∧ (digitChar d).toNat = 48 + d := by
  interval_cases d <;> exact ⟨by decide, by decide⟩

theorem decVal_append_digit (ds : Str) (c : Char) :
    decVal (ds ++ [c]) = 10 * decVal ds + (c.toNat - 48) := by
  simp [decVal, List.foldl_append]

theorem digitsAux_spec : ∀ (f n : Nat) (acc : Str), n < f →
    ∃ ds : Str, digitsAux f n acc = ds ++ acc ∧ ds ≠ []
      ∧ (∀ c ∈ ds, c.isDigit = true) ∧ decVal ds = n := by
  intro f
  induction f with
  | zero => intro n acc h; omega
  | succ f ih =>
    intro n acc h
    by_cases h10 : n < 10
    · refine ⟨[digitChar n], by simp [digitsAux, h10], by simp, ?_, ?_⟩
      · intro c hc
        rcases List.mem_singleton.mp hc with rfl
        exact (digitChar_spec h10).1
      · show decVal ([] ++ [digitChar n]) = n
        rw [decVal_append_digit, (digitChar_spec h10).2]
        show 10 * 0 + (48 + n - 48) = n
        omega
    · have hrec : n / 10 < f := by
        have h1 : n / 10 < n := Nat.div_lt_self (by omega) (by omega)
        omega
      rcases ih (n / 10) (digitChar (n % 10) :: acc) hrec with ⟨ds, hds, hne, hdig, hval⟩
      have hm10 : n % 10 < 10 := Nat.mod_lt n (by omega)
      refine ⟨ds ++ [digitChar (n % 10)], ?_, by simp, ?_, ?_⟩
      · show digitsAux (f + 1) n acc = _
        rw [show digitsAux (f + 1) n acc
            = digitsAux f (n / 10) (digitChar (n % 10) :: acc) from by
          simp [digitsAux, h10]]
        rw [hds]
        simp
      · intro c hc
        rcases List.mem_append.mp hc with hc | hc
        · exact hdig c hc
        · rcases List.mem_singleton.mp hc with rfl
          exact (digitChar_spec hm10).1
      · rw [decVal_append_digit, hval, (digitChar_spec hm10).2]
        omega

theorem natToDec_spec (n : Nat) :
    natToDec n ≠ [] ∧ (∀ c ∈ natToDec n, c.isDigit = true) ∧ decVal (natToDec n) = n := by
  rcases digitsAux_spec (n + 1) n [] (by omega) with ⟨ds, hds, hne, hdig, hval⟩
  unfold natToDec
  rw [hds, List.append_nil]
  exact ⟨hne, hdig, hval⟩

theorem takeWhile_append_stop {p : Char → Bool} :
    ∀ {l : Str}, (∀ c ∈ l, p c = true) → ∀ {h0 : Char}, p h0 = false → ∀ (t : Str),
      (l ++ h0 :: t).takeWhile p = l ∧ (l ++ h0 :: t).dropWhile p = h0 :: t := by
  intro l
  induction l with
  | nil =>
    intro _ h0 hh t
    simp [List.takeWhile, List.dropWhile, hh]
  | cons c cs ih =>
    intro h h0 hh t
    have hc : p c = true := h c (List.mem_cons_self _ _)
    have hcs : ∀ c' ∈ cs, p c' = true := fun c' h' => h c' (List.mem_cons_of_mem _ h')
    have := ih hcs hh t
    simp [List.takeWhile, List.dropWhile, hc, this.1, this.2]

theorem parseTs_genId (ts : Nat) (rand : Str) :
    parseTs (generateNotificationId ts rand) = some ts := by
  obtain ⟨hne, hdig, hval⟩ := natToDec_spec ts
  have hsplit := takeWhile_append_stop (p := fun c => c.isDigit) hdig
    (show ('-').isDigit = false from by decide) rand
  unfold generateNotificationId parseTs
  rw [if_pos (beginsWith_append_self "notif-".data _)]
  rw [show ("notif-".data ++ (natToDec ts ++ '-' :: rand)).drop 6
      = natToDec ts ++ '-' :: rand from by
    rw [show (6 : Nat) = "notif-".data.length from rfl, List.drop_left]]
  rw [hsplit.1, hsplit.2, if_neg hne, hval]
  rfl

theorem sweepable_genId (ts : Nat) (rand : Str) (now : Int) :
    sweepable (generateNotificationId ts rand) now
      = decide ((ts : Int) < now - retentionMs) := by
  unfold sweepable
  rw [parseTs_genId]

theorem mem_sweepRun {st : CorrMap} {now : Int} {e : Str × TabInfo} :
    e ∈ sweepRun st now ↔ e ∈ st ∧ sweepable e.1 now = false := by
  unfold sweepRun
  rw [List.mem_filter]
  simp

/-- Claim C9 is false as stated: the sweep decides by the shape of the key
alone, so a caller-supplied tag that happens to match the generated-id
pattern is swept like a generated id.  Concretely, a create request whose
caller-supplied tag is `notif-0-abcdefghi` is recorded under that tag, and
one sweep at time 3600001 (one millisecond past the retention window for
timestamp 0) removes it. -/
theorem claim_C9_counterexample :
    notifIdOf ⟨some "t".data, some "b".data, none, some "notif-0-abcdefghi".data, "u".data⟩
        0 "r".data
      = "notif-0-abcdefghi".data
    ∧ mapGet "notif-0-abcdefghi".data
        (handleCreateNotification
          ⟨some "t".data, some "b".data, none, some "notif-0-abcdefghi".data, "u".data⟩
          ⟨some 1, some 2⟩ [] 0 "r".data FetchOutcome.netErr).1
      = some ⟨1, some 2, "u".data⟩
    ∧ sweepRun
        (handleCreateNotification
          ⟨some "t".data, some "b".data, none, some "notif-0-abcdefghi".data, "u".data⟩
          ⟨some 1, some 2⟩ [] 0 "r".data FetchOutcome.netErr).1
        3600001
      = [] := by
  refine ⟨by decide, by decide, by decide⟩

/-- Claim C9, amended: one sweep run keeps exactly the entries whose key
does not parse as `notif-` + timestamp + `-` with a timestamp older than
the retention window; every system-generated identifier parses to its
creation timestamp (so generated entries older than the window are
removed), and an entry whose key does not match the pattern — the shape of
every tag the sweep was designed to skip — is never removed, regardless of
age.  A caller-supplied tag matching the pattern is treated like a
generated id. -/
theorem claim_C9_amended (st : CorrMap) (now : Int) (k : Str) (v : TabInfo)
    (ts : Nat) (rand : Str) :
    ((k, v) ∈ sweepRun st now ↔ (k, v) ∈ st ∧ sweepable k now = false)
    ∧ sweepable (generateNotificationId ts rand) now
        = decide ((ts : Int) < now - retentionMs)
    ∧ (parseTs k = none → sweepable k now = false) := by
  refine ⟨mem_sweepRun, sweepable_genId ts rand now, ?_⟩
  intro h
  unfold sweepable
  rw [h]

/-- Witness for the amended C9: a fresh generated id survives a sweep just
inside the window, an old one is swept, and a non-matching tag survives any
sweep. -/
theorem claim_C9_amended_witness :
    (("chat".data, (⟨1, none, "u".data⟩ : TabInfo))
        ∈ sweepRun [("chat".data, (⟨1, none, "u".data⟩ : TabInfo))] 99999999
      ↔ ("chat".data, (⟨1, none, "u".data⟩ : TabInfo))
          ∈ [("chat".data, (⟨1, none, "u".data⟩ : TabInfo))]
        ∧ sweepable "chat".data 99999999 = false)
    ∧ sweepable (generateNotificationId 7 "abc".data) 99999999
        = decide ((7 : Int) < 99999999 - retentionMs)
    ∧ (parseTs "chat".data = none → sweepable "chat".data 99999999 = false)
    ∧ sweepable (generateNotificationId 7 "abc".data) 99999999 = true
    ∧ parseTs "chat".data = none := by
  have h := claim_C9_amended [("chat".data, ⟨1, none, "u".data⟩)] 99999999 "chat".data
    ⟨1, none, "u".data⟩ 7 "abc".data
  refine ⟨h.1, h.2.1, h.2.2, ?_, by decide⟩
  rw [h.2.1]
  decide

